import Mathlib

/-!
Verification of `src/equalizer.js` (weight equalizer).

The JavaScript source operates on plain objects mapping string keys to
numbers.  We embed a weight set as an association list `List (String × ℚ)`
in insertion order (JS objects preserve key order for the keys appearing
here), and JS numbers as exact rationals `ℚ`.  All arithmetic performed by
the program on the inputs considered is exact decimal arithmetic, which ℚ
models faithfully — except for division by a zero sum, where JS produces
the IEEE special values `Infinity`/`-Infinity`/`NaN`, which ℚ cannot
represent.  That path is modeled separately and faithfully by the `JsVal`
type and `rescaleJs` below (with `rescaleJs_of_ne_zero` showing the two
models agree whenever the divisor is nonzero, so the ℚ pipeline is exact
for every run with a nonzero post-correction sum).

Loops in the source are embedded with explicit fuel: `none` means the loop
did not finish within the given fuel.
-/

namespace Equalizer

/-- A JS object of weights: keys in insertion order with rational values. -/
abbrev WeightSet := List (String × ℚ)

/-- Sum of the values of a weight set (`Object.values(x).reduce((a,c)=>a+c,0)`). -/
def sumValues (l : WeightSet) : ℚ := (l.map Prod.snd).sum

/-- JS `Math.round`: round half toward positive infinity. -/
def jsRound (x : ℚ) : ℤ := ⌊x + 1/2⌋

/-- `Math.round(x * 10) / 10` — round to one decimal place. -/
def round10 (x : ℚ) : ℚ := (jsRound (x * 10) : ℚ) / 10

/-- `Object.values(data).sort((a, b) => a - b)`: the values in ascending
order.  (`Array.prototype.sort` sorts the fresh array returned by
`Object.values` in place, so in `adjustWeights` the array `weights` itself
is sorted.) -/
def sortedValues (data : WeightSet) : List ℚ :=
  List.insertionSort (· ≤ ·) (data.map Prod.snd)

/-- `adjustAllWeights(weights, amount)` from the source: builds a fresh
object keyed by the array indices `0 … n-1` (stringified, as JS object
keys are), each value increased by `amount`.  Note the source adds the
amount itself, whatever its sign. -/
def adjustAllWeights (weights : List ℚ) (amount : ℚ) : WeightSet :=
  weights.enum.map (fun p => (toString p.1, p.2 + amount))

/-- `adjustMaxWeight(weights, newMax, oldMax)` from the source: builds a
fresh object keyed by the array indices, replacing every value strictly
equal (`===`) to `oldMax` by `newMax`. -/
def adjustMaxWeight (weights : List ℚ) (newMax oldMax : ℚ) : WeightSet :=
  weights.enum.map (fun p => (toString p.1, if p.2 = oldMax then newMax else p.2))

/-- Lines 32–47 of the source: the branch choosing between floor
correction, ceiling correction, and no correction.  The length guards
encode JS semantics of out-of-range indexing: for `n = 0` the comparison
`undefined <= 0` is false, and for `n < 2` the comparison
`maxWeight - undefined > minWeight` is `NaN > minWeight`, also false. -/
def stage12 (data : WeightSet) : WeightSet :=
  let weights := sortedValues data
  let n := weights.length
  if 0 < n ∧ weights.getD 0 0 ≤ 0 then
    adjustAllWeights weights (weights.getD 0 0)
  else if 2 ≤ n ∧ weights.getD 0 0 < weights.getD (n - 1) 0 - weights.getD (n - 2) 0 then
    adjustMaxWeight weights (weights.getD (n - 2) 0 + weights.getD 0 0) (weights.getD (n - 1) 0)
  else
    data

/-- Lines 50–51 of the source: proportional rescale of every value by
`m / s`, rounded to one decimal.  The source performs the division
unconditionally.  This ℚ version is exact for `s ≠ 0`; for `s = 0` JS
produces `Infinity`/`-Infinity`/`NaN`, which ℚ cannot represent (ℚ has
`m / 0 = 0`), so the `s = 0` runs are modeled by the faithful `rescaleJs`
below, and no theorem about an `s = 0` run is stated over this ℚ
version. -/
def rescale (l : WeightSet) (m s : ℚ) : WeightSet :=
  l.map (fun kv => (kv.1, round10 (m / s * kv.2)))

/-- One pass of the `for … of Object.entries` loop inside
`adjustHighWeights`: every value `≥ eta` is replaced by
`round10(value - 0.1)`, the running sum is recomputed after each single
update, and the pass stops early as soon as the sum reaches `m`.
`acc` holds the already-processed entries in reverse order. -/
def highSweep (eta m : ℚ) (acc : WeightSet) : WeightSet → WeightSet
  | [] => acc.reverse
  | kv :: rest =>
    if eta ≤ kv.2 then
      let v2 := round10 (kv.2 - 1/10)
      let st := acc.reverse ++ (kv.1, v2) :: rest
      if m ≤ sumValues st then st
      else highSweep eta m ((kv.1, v2) :: acc) rest
    else highSweep eta m (kv :: acc) rest

/-- The `while (adjustedSum < m)` loop of `adjustHighWeights`, with fuel
bounding the number of `while` iterations; `none` means the loop was still
running when the fuel ran out. -/
def highLoop (eta m : ℚ) : ℕ → WeightSet → Option WeightSet
  | 0, _ => none
  | fuel + 1, st =>
    if sumValues st < m then highLoop eta m fuel (highSweep eta m [] st)
    else some st

/-- `adjustHighWeights(data, m, n)` from the source: computes the median
`eta` of the current values (average of the two middle values for even
`n`) and runs the decrementing reconciliation loop. -/
def adjustHighWeights (data : WeightSet) (m : ℚ) (n : ℕ) (fuel : ℕ) : Option WeightSet :=
  let sorted := List.insertionSort (· ≤ ·) (data.map Prod.snd)
  let eta :=
    if n % 2 = 0 then (sorted.getD (n / 2 - 1) 0 + sorted.getD (n / 2) 0) / 2
    else sorted.getD ((n - 1) / 2) 0
  highLoop eta m fuel data

/-- The JS test `value < sortedWeights[1]`: false when the index is out of
range (`undefined` comparison). -/
def belowThreshold (t : Option ℚ) (v : ℚ) : Bool :=
  match t with
  | some b => decide (v < b)
  | none => false

/-- One pass of the `for … of Object.entries` loop inside
`adjustLowWeights`: every value strictly below the second-smallest sorted
value (`sortedWeights[1]`, `none` when `n < 2`, in which case the JS
comparison with `undefined` is false) is replaced by
`round10(value + 0.1)`, with the same per-update sum recomputation and
early exit once the sum falls to `m`. -/
def lowSweep (t : Option ℚ) (m : ℚ) (acc : WeightSet) : WeightSet → WeightSet
  | [] => acc.reverse
  | kv :: rest =>
    if belowThreshold t kv.2 then
      let v2 := round10 (kv.2 + 1/10)
      let st := acc.reverse ++ (kv.1, v2) :: rest
      if sumValues st ≤ m then st
      else lowSweep t m ((kv.1, v2) :: acc) rest
    else lowSweep t m (kv :: acc) rest

/-- The `while (adjustedSum > m)` loop of `adjustLowWeights`, with fuel. -/
def lowLoop (t : Option ℚ) (m : ℚ) : ℕ → WeightSet → Option WeightSet
  | 0, _ => none
  | fuel + 1, st =>
    if m < sumValues st then lowLoop t m fuel (lowSweep t m [] st)
    else some st

/-- `adjustLowWeights(data, m, n)` from the source (the parameter `n` is
unused there apart from being in scope; the threshold is
`sortedWeights[1]`). -/
def adjustLowWeights (data : WeightSet) (m : ℚ) (_n : ℕ) (fuel : ℕ) : Option WeightSet :=
  let sorted := List.insertionSort (· ≤ ·) (data.map Prod.snd)
  lowLoop (sorted.get? 1) m fuel data

/-- `adjustWeights(data, m)` from the source: correction branch, rescale,
then one of the two reconciliation loops depending on the rescaled sum. -/
def adjustWeights (data : WeightSet) (m : ℚ) (fuel : ℕ) : Option WeightSet :=
  let n := data.length
  let adjusted := stage12 data
  let s := sumValues adjusted
  let rescaled := rescale adjusted m s
  let s1 := sumValues rescaled
  if s1 < m then adjustHighWeights rescaled m n fuel
  else if m < s1 then adjustLowWeights rescaled m n fuel
  else some rescaled

/-! ### JS number semantics for the division-by-zero path

The rescale at lines 50–51 divides by the post-correction sum with no
zero check.  When that sum is 0, JS produces the IEEE special values,
which ℚ cannot represent, so this fragment of the pipeline is modeled
over `JsVal`: a finite rational or `Infinity`/`-Infinity`/`NaN`.  Only
the operations the source applies to these values are needed: the
division itself, multiplication by a finite weight, `Math.round(x*10)/10`,
the summing `reduce`, and the `<`/`>` guards of the two `while` loops.
(`rescaleJs_of_ne_zero` below shows this model coincides with the ℚ
`rescale` whenever the divisor is nonzero.) -/

/-- A JS number as produced by the rescale step: a finite value (exactly
a rational here) or one of the IEEE special values. -/
inductive JsVal where
  | num : ℚ → JsVal
  | posInf : JsVal
  | negInf : JsVal
  | nan : JsVal
deriving DecidableEq

/-- Whether a JS value is finite (not `Infinity`, `-Infinity` or `NaN`). -/
def JsVal.isFinite : JsVal → Bool
  | num _ => true
  | _ => false

/-- JS division `m / s` of finite numbers: for `s = 0` the result is
`Infinity`, `-Infinity` or `NaN` according to the sign of `m`; otherwise
the exact quotient. -/
def jsDiv (m s : ℚ) : JsVal :=
  if s = 0 then
    if 0 < m then JsVal.posInf else if m < 0 then JsVal.negInf else JsVal.nan
  else JsVal.num (m / s)

/-- JS multiplication of the scale factor `m / adjustedSum` by a finite
weight: `±Infinity * v` keeps or flips sign for `v ≠ 0` and is `NaN` for
`v = 0`; `NaN * v = NaN`. -/
def jsMul (x : JsVal) (v : ℚ) : JsVal :=
  match x with
  | JsVal.num a => JsVal.num (a * v)
  | JsVal.posInf =>
    if 0 < v then JsVal.posInf else if v < 0 then JsVal.negInf else JsVal.nan
  | JsVal.negInf =>
    if 0 < v then JsVal.negInf else if v < 0 then JsVal.posInf else JsVal.nan
  | JsVal.nan => JsVal.nan

/-- `Math.round(x * 10) / 10` on a JS value: the identity on `±Infinity`
and `NaN` (`Math.round` maps them to themselves). -/
def round10Js : JsVal → JsVal
  | JsVal.num a => JsVal.num (round10 a)
  | x => x

/-- JS addition as used by `reduce((acc, curr) => acc + curr, 0)`: `NaN`
is absorbing and `Infinity + -Infinity = NaN`. -/
def jsAdd : JsVal → JsVal → JsVal
  | JsVal.nan, _ => JsVal.nan
  | _, JsVal.nan => JsVal.nan
  | JsVal.posInf, JsVal.negInf => JsVal.nan
  | JsVal.negInf, JsVal.posInf => JsVal.nan
  | JsVal.posInf, _ => JsVal.posInf
  | _, JsVal.posInf => JsVal.posInf
  | JsVal.negInf, _ => JsVal.negInf
  | _, JsVal.negInf => JsVal.negInf
  | JsVal.num a, JsVal.num b => JsVal.num (a + b)

/-- `values.reduce((acc, curr) => acc + curr, 0)` over JS values. -/
def jsSumVals (vs : List JsVal) : JsVal := vs.foldl jsAdd (JsVal.num 0)

/-- Sum of the values of a JS-valued object. -/
def jsSum (l : List (String × JsVal)) : JsVal := jsSumVals (l.map Prod.snd)

/-- JS `<` on values: any comparison involving `NaN` is false. -/
def jsLt : JsVal → JsVal → Bool
  | JsVal.nan, _ => false
  | _, JsVal.nan => false
  | JsVal.num a, JsVal.num b => decide (a < b)
  | JsVal.num _, JsVal.posInf => true
  | JsVal.num _, JsVal.negInf => false
  | JsVal.posInf, _ => false
  | JsVal.negInf, JsVal.negInf => false
  | JsVal.negInf, _ => true

/-- Lines 50–51 of the source with JS number semantics: the faithful
rescale, producing the IEEE special values when the divisor `s` is zero
and exactly the finite `rescale` values otherwise. -/
def rescaleJs (l : WeightSet) (m s : ℚ) : List (String × JsVal) :=
  l.map (fun kv => (kv.1, round10Js (jsMul (jsDiv m s) kv.2)))

/-! ### Basic computation lemmas -/

theorem round10_eq_of (x : ℚ) (k : ℤ) (h1 : (k : ℚ) ≤ x * 10 + 1/2)
    (h2 : x * 10 + 1/2 < (k : ℚ) + 1) : round10 x = (k : ℚ) / 10 := by
  have hf : ⌊x * 10 + 1/2⌋ = k := Int.floor_eq_iff.mpr ⟨h1, h2⟩
  unfold round10 jsRound
  rw [hf]

theorem round10_int (k : ℤ) : round10 (k : ℚ) = (k : ℚ) := by
  rw [round10_eq_of (k : ℚ) (10 * k) (by push_cast; linarith) (by push_cast; linarith)]
  push_cast
  ring

theorem round10_le (x : ℚ) : round10 x ≤ x + 1/20 := by
  have h := Int.floor_le (x * 10 + 1/2)
  unfold round10 jsRound
  rw [div_le_iff₀ (by norm_num : (0:ℚ) < 10)]
  linarith

theorem round10_ge (x : ℚ) : x - 1/20 ≤ round10 x := by
  have h := Int.lt_floor_add_one (x * 10 + 1/2)
  unfold round10 jsRound
  rw [le_div_iff₀ (by norm_num : (0:ℚ) < 10)]
  linarith

theorem sumValues_nil : sumValues [] = 0 := rfl

theorem sumValues_cons (kv : String × ℚ) (l : WeightSet) :
    sumValues (kv :: l) = kv.2 + sumValues l := by
  simp [sumValues]

theorem sumValues_append (a b : WeightSet) :
    sumValues (a ++ b) = sumValues a + sumValues b := by
  simp [sumValues]

theorem sumValues_reverse (a : WeightSet) : sumValues a.reverse = sumValues a := by
  simp [sumValues, List.sum_reverse]

/-! ### The reconciliation loops never terminate once entered

`adjustHighWeights` is called by `adjustWeights` exactly when the rescaled
sum is below `m`, but its body only ever *decreases* values (by rounded
0.1 steps), so the sum moves away from `m` and the `while` guard
`adjustedSum < m` can never become false.  Dually, `adjustLowWeights` is
called exactly when the sum is above `m` but only ever increases values.
We prove the sweeps are monotone in the sum and conclude that the loops
return `none` for every fuel. -/

theorem highSweep_sum_le (eta m : ℚ) :
    ∀ (rest acc : WeightSet),
      sumValues (highSweep eta m acc rest) ≤ sumValues acc + sumValues rest := by
  intro rest
  induction rest with
  | nil =>
    intro acc
    simp [highSweep, sumValues_reverse, sumValues_nil]
  | cons kv rest ih =>
    intro acc
    rw [highSweep]
    by_cases hc : eta ≤ kv.2
    · rw [if_pos hc]
      have hv2 : round10 (kv.2 - 1/10) ≤ kv.2 := by
        have := round10_le (kv.2 - 1/10)
        linarith
      by_cases hs : m ≤ sumValues (acc.reverse ++ (kv.1, round10 (kv.2 - 1/10)) :: rest)
      · rw [if_pos hs]
        rw [sumValues_append, sumValues_reverse, sumValues_cons]
        rw [sumValues_cons]
        simp only
        linarith
      · rw [if_neg hs]
        have := ih ((kv.1, round10 (kv.2 - 1/10)) :: acc)
        rw [sumValues_cons] at this
        rw [sumValues_cons]
        simp only at this ⊢
        linarith
    · rw [if_neg hc]
      have := ih (kv :: acc)
      rw [sumValues_cons] at this
      rw [sumValues_cons]
      linarith

theorem highLoop_none (eta m : ℚ) :
    ∀ (fuel : ℕ) (st : WeightSet), sumValues st < m → highLoop eta m fuel st = none := by
  intro fuel
  induction fuel with
  | zero => intro st _; rfl
  | succ fuel ih =>
    intro st h
    rw [highLoop, if_pos h]
    apply ih
    have := highSweep_sum_le eta m st []
    rw [sumValues_nil] at this
    linarith

theorem adjustHighWeights_none (data : WeightSet) (m : ℚ) (n fuel : ℕ)
    (h : sumValues data < m) : adjustHighWeights data m n fuel = none := by
  simp only [adjustHighWeights]
  exact highLoop_none _ _ _ _ h

theorem lowSweep_sum_ge (t : Option ℚ) (m : ℚ) :
    ∀ (rest acc : WeightSet),
      sumValues acc + sumValues rest ≤ sumValues (lowSweep t m acc rest) := by
  intro rest
  induction rest with
  | nil =>
    intro acc
    simp [lowSweep, sumValues_reverse, sumValues_nil]
  | cons kv rest ih =>
    intro acc
    rw [lowSweep]
    by_cases hc : belowThreshold t kv.2
    · rw [if_pos hc]
      have hv2 : kv.2 ≤ round10 (kv.2 + 1/10) := by
        have := round10_ge (kv.2 + 1/10)
        linarith
      by_cases hs : sumValues (acc.reverse ++ (kv.1, round10 (kv.2 + 1/10)) :: rest) ≤ m
      · rw [if_pos hs]
        rw [sumValues_append, sumValues_reverse, sumValues_cons]
        rw [sumValues_cons]
        simp only
        linarith
      · rw [if_neg hs]
        have := ih ((kv.1, round10 (kv.2 + 1/10)) :: acc)
        rw [sumValues_cons] at this
        rw [sumValues_cons]
        simp only at this ⊢
        linarith
    · rw [if_neg hc]
      have := ih (kv :: acc)
      rw [sumValues_cons] at this
      rw [sumValues_cons]
      linarith

theorem lowLoop_none (t : Option ℚ) (m : ℚ) :
    ∀ (fuel : ℕ) (st : WeightSet), m < sumValues st → lowLoop t m fuel st = none := by
  intro fuel
  induction fuel with
  | zero => intro st _; rfl
  | succ fuel ih =>
    intro st h
    rw [lowLoop, if_pos h]
    apply ih
    have := lowSweep_sum_ge t m st []
    rw [sumValues_nil] at this
    linarith

theorem adjustLowWeights_none (data : WeightSet) (m : ℚ) (n fuel : ℕ)
    (h : m < sumValues data) : adjustLowWeights data m n fuel = none := by
  simp only [adjustLowWeights]
  exact lowLoop_none _ _ _ _ h

/-- Whenever `adjustWeights` does return a result, the reconciliation
stage was not entered at all: the result is the rescaled weight set and
its sum is exactly `m`. -/
theorem adjustWeights_some_eq {data : WeightSet} {m : ℚ} {fuel : ℕ} {out : WeightSet}
    (h : adjustWeights data m fuel = some out) :
    out = rescale (stage12 data) m (sumValues (stage12 data)) ∧ sumValues out = m := by
  simp only [adjustWeights] at h
  by_cases h1 : sumValues (rescale (stage12 data) m (sumValues (stage12 data))) < m
  · rw [if_pos h1, adjustHighWeights_none _ _ _ _ h1] at h
    exact absurd h (by simp)
  · rw [if_neg h1] at h
    by_cases h2 : m < sumValues (rescale (stage12 data) m (sumValues (stage12 data)))
    · rw [if_pos h2, adjustLowWeights_none _ _ _ _ h2] at h
      exact absurd h (by simp)
    · rw [if_neg h2] at h
      have hout : rescale (stage12 data) m (sumValues (stage12 data)) = out :=
        Option.some.inj h
      refine ⟨hout.symm, ?_⟩
      rw [← hout]
      exact le_antisymm (not_lt.mp h2) (not_lt.mp h1)

/-! ### Values and keys of the objects rebuilt from the sorted array -/

theorem enumFrom_map_snd (g : ℚ → ℚ) :
    ∀ (l : List ℚ) (k : ℕ),
      ((List.enumFrom k l).map (fun p => (toString p.1, g p.2))).map Prod.snd = l.map g := by
  intro l
  induction l with
  | nil => intro k; rfl
  | cons x l ih => intro k; simp only [List.enumFrom, List.map_cons]; rw [ih (k + 1)]

theorem enumFrom_map_fst (g : ℚ → ℚ) :
    ∀ (l : List ℚ) (k : ℕ),
      ((List.enumFrom k l).map (fun p => (toString p.1, g p.2))).map Prod.fst =
        (List.range' k l.length).map toString := by
  intro l
  induction l with
  | nil => intro k; rfl
  | cons x l ih =>
    intro k
    simp only [List.enumFrom, List.map_cons, List.length_cons, List.range'_succ]
    rw [ih (k + 1)]

theorem adjustAllWeights_values (ws : List ℚ) (amount : ℚ) :
    (adjustAllWeights ws amount).map Prod.snd = ws.map (· + amount) :=
  enumFrom_map_snd (· + amount) ws 0

theorem adjustAllWeights_keys (ws : List ℚ) (amount : ℚ) :
    (adjustAllWeights ws amount).map Prod.fst = (List.range' 0 ws.length).map toString :=
  enumFrom_map_fst (· + amount) ws 0

theorem adjustMaxWeight_values (ws : List ℚ) (newMax oldMax : ℚ) :
    (adjustMaxWeight ws newMax oldMax).map Prod.snd =
      ws.map (fun w => if w = oldMax then newMax else w) :=
  enumFrom_map_snd (fun w => if w = oldMax then newMax else w) ws 0

theorem adjustMaxWeight_keys (ws : List ℚ) (newMax oldMax : ℚ) :
    (adjustMaxWeight ws newMax oldMax).map Prod.fst =
      (List.range' 0 ws.length).map toString :=
  enumFrom_map_fst (fun w => if w = oldMax then newMax else w) ws 0

/-! ### Facts about the sorted value array -/

theorem sortedValues_length (data : WeightSet) :
    (sortedValues data).length = data.length := by
  simp [sortedValues, List.length_insertionSort]

theorem sortedValues_perm (data : WeightSet) :
    (sortedValues data).Perm (data.map Prod.snd) :=
  List.perm_insertionSort _ _

theorem sortedValues_sorted (data : WeightSet) :
    (sortedValues data).Sorted (· ≤ ·) :=
  List.sorted_insertionSort _ _

theorem sortedValues_sum (data : WeightSet) :
    (sortedValues data).sum = sumValues data :=
  (sortedValues_perm data).sum_eq

theorem sortedValues_mem {data : WeightSet} {v : ℚ} :
    v ∈ sortedValues data ↔ v ∈ data.map Prod.snd :=
  (sortedValues_perm data).mem_iff

/-- In a sorted list, the first element (the source's `minWeight`) is a
lower bound for every element. -/
theorem sorted_getD_zero_le {ws : List ℚ} (hs : ws.Sorted (· ≤ ·)) {v : ℚ}
    (hv : v ∈ ws) : ws.getD 0 0 ≤ v := by
  cases ws with
  | nil => cases hv
  | cons h t =>
    rcases List.mem_cons.mp hv with rfl | hv'
    · exact le_refl _
    · exact (List.sorted_cons.mp hs).1 v hv'

/-- In a sorted list whose last element strictly exceeds the
second-to-last, the last element (the source's `maxWeight`) occurs exactly
once. -/
theorem sorted_count_max {ws : List ℚ} (hs : ws.Sorted (· ≤ ·))
    (hn : 2 ≤ ws.length)
    (hlt : ws.getD (ws.length - 2) 0 < ws.getD (ws.length - 1) 0) :
    ws.count (ws.getD (ws.length - 1) 0) = 1 := by
  have hne : ws ≠ [] := by
    intro h
    rw [h] at hn
    exact absurd hn (by norm_num)
  have hlen1 : ws.length - 1 < ws.length := by
    have : 0 < ws.length := by omega
    omega
  have hlen2 : ws.length - 2 < ws.length := by omega
  have hα : ws.getD (ws.length - 1) 0 = ws[ws.length - 1] := List.getD_eq_getElem _ _ hlen1
  have hβ : ws.getD (ws.length - 2) 0 = ws[ws.length - 2] := List.getD_eq_getElem _ _ hlen2
  have hsplit : ws.dropLast ++ [ws.getLast hne] = ws := List.dropLast_append_getLast hne
  have hlast : ws.getLast hne = ws[ws.length - 1] := List.getLast_eq_getElem _ _
  have hnotmem : ws.getD (ws.length - 1) 0 ∉ ws.dropLast := by
    intro hmem
    obtain ⟨i, hi, hig⟩ := List.mem_iff_getElem.mp hmem
    have hi' : i < ws.length - 1 := by
      have := ws.length_dropLast
      omega
    have hiw : i < ws.length := by omega
    have hig' : ws[i] = ws.getD (ws.length - 1) 0 := by
      rw [← hig, List.getElem_dropLast]
    have hle : ws[i] ≤ ws[ws.length - 2] := by
      rcases Nat.lt_or_ge i (ws.length - 2) with hil | hige
      · have := hs.rel_get_of_le
          (a := ⟨i, by omega⟩) (b := ⟨ws.length - 2, hlen2⟩) (by simpa using Nat.le_of_lt hil)
        simpa [List.get_eq_getElem] using this
      · have : i = ws.length - 2 := by omega
        subst this
        exact le_refl _
    rw [hig', hα] at hle
    rw [hα, hβ] at hlt
    exact absurd (lt_of_le_of_lt hle hlt) (lt_irrefl _)
  calc ws.count (ws.getD (ws.length - 1) 0)
      = (ws.dropLast ++ [ws.getLast hne]).count (ws.getD (ws.length - 1) 0) := by rw [hsplit]
    _ = 1 := by
        rw [List.count_append, List.count_eq_zero.mpr hnotmem, hlast, ← hα]
        simp

/-! ### Concrete values of `round10` used in evaluations -/

theorem toString_nat0 : toString (0 : ℕ) = "0" := rfl

theorem toString_nat1 : toString (1 : ℕ) = "1" := rfl

theorem toString_nat2 : toString (2 : ℕ) = "2" := rfl

theorem round10_zero : round10 0 = 0 := by
  rw [round10_eq_of 0 0 (by norm_num) (by norm_num)]
  norm_num

theorem round10_one : round10 1 = 1 := by
  rw [round10_eq_of 1 10 (by norm_num) (by norm_num)]
  norm_num

theorem round10_two : round10 2 = 2 := by
  rw [round10_eq_of 2 20 (by norm_num) (by norm_num)]
  norm_num

theorem round10_three : round10 3 = 3 := by
  rw [round10_eq_of 3 30 (by norm_num) (by norm_num)]
  norm_num

theorem round10_five : round10 5 = 5 := by
  rw [round10_eq_of 5 50 (by norm_num) (by norm_num)]
  norm_num

theorem round10_ten : round10 10 = 10 := by
  rw [round10_eq_of 10 100 (by norm_num) (by norm_num)]
  norm_num

theorem round10_neg_one : round10 (-1) = -1 := by
  rw [round10_eq_of (-1) (-10) (by norm_num) (by norm_num)]
  norm_num

theorem round10_ten_thirds : round10 (10/3) = 33/10 := by
  rw [round10_eq_of (10/3) 33 (by norm_num) (by norm_num)]
  norm_num

theorem round10_five_fourths : round10 (5/4) = 13/10 := by
  rw [round10_eq_of (5/4) 13 (by norm_num) (by norm_num)]
  norm_num

theorem round10_five_thirds : round10 (5/3) = 17/10 := by
  rw [round10_eq_of (5/3) 17 (by norm_num) (by norm_num)]
  norm_num

/-! ### Which branch `stage12` takes -/

theorem stage12_floor {data : WeightSet} (h0 : data ≠ [])
    (hω : (sortedValues data).getD 0 0 ≤ 0) :
    stage12 data = adjustAllWeights (sortedValues data) ((sortedValues data).getD 0 0) := by
  have hl : 0 < (sortedValues data).length := by
    rw [sortedValues_length]
    exact List.length_pos.mpr h0
  simp only [stage12]
  rw [if_pos ⟨hl, hω⟩]

theorem stage12_ceil {data : WeightSet}
    (hfloor : ¬ (sortedValues data).getD 0 0 ≤ 0)
    (hn : 2 ≤ (sortedValues data).length)
    (hc : (sortedValues data).getD 0 0 <
      (sortedValues data).getD ((sortedValues data).length - 1) 0 -
        (sortedValues data).getD ((sortedValues data).length - 2) 0) :
    stage12 data =
      adjustMaxWeight (sortedValues data)
        ((sortedValues data).getD ((sortedValues data).length - 2) 0 +
          (sortedValues data).getD 0 0)
        ((sortedValues data).getD ((sortedValues data).length - 1) 0) := by
  simp only [stage12]
  rw [if_neg (fun h => hfloor h.2), if_pos ⟨hn, hc⟩]

theorem stage12_id {data : WeightSet}
    (h1 : ¬ (0 < (sortedValues data).length ∧ (sortedValues data).getD 0 0 ≤ 0))
    (h2 : ¬ (2 ≤ (sortedValues data).length ∧ (sortedValues data).getD 0 0 <
      (sortedValues data).getD ((sortedValues data).length - 1) 0 -
        (sortedValues data).getD ((sortedValues data).length - 2) 0)) :
    stage12 data = data := by
  simp only [stage12]
  rw [if_neg h1, if_neg h2]

/-! ### C3 — floor correction -/

/-- C3 counterexample: on the input `{a: -1, b: 2}` (minimum ω = -1 ≤ 0)
the floor-correction stage produces the values `-2` and `1` — it adds
`ω = -1` itself, not `|ω| = 1`, so a weight is negative after stage 1
(contradicting "after stage 1 every weight is >= 0 and the original
minimum equals exactly 0"). -/
theorem stage12_floor_cex :
    stage12 [("a", -1), ("b", 2)] = [("0", -2), ("1", 1)] ∧ ¬ ((0:ℚ) ≤ -2) := by
  constructor
  · norm_num [stage12, sortedValues, List.insertionSort, List.orderedInsert,
      adjustAllWeights, List.enum, List.enumFrom, toString_nat0, toString_nat1]
  · norm_num

/-- C3 (amended): if the minimum weight ω satisfies ω ≤ 0, the
floor-correction stage adds ω itself (not `|ω|`) to every weight, taken in
sorted order; the weight that was the original minimum becomes `2ω` (so it
is ≥ 0 only when ω = 0). -/
theorem stage12_floor_adds_min {data : WeightSet} (h0 : data ≠ [])
    (hω : (sortedValues data).getD 0 0 ≤ 0) :
    (stage12 data).map Prod.snd =
        (sortedValues data).map (· + (sortedValues data).getD 0 0) ∧
      ((stage12 data).map Prod.snd).head? =
        some ((sortedValues data).getD 0 0 + (sortedValues data).getD 0 0) ∧
      ∀ v ∈ data.map Prod.snd, (sortedValues data).getD 0 0 ≤ v := by
  have hvals : (stage12 data).map Prod.snd =
      (sortedValues data).map (· + (sortedValues data).getD 0 0) := by
    rw [stage12_floor h0 hω, adjustAllWeights_values]
  refine ⟨hvals, ?_, ?_⟩
  · rw [hvals]
    have hl : 0 < (sortedValues data).length := by
      rw [sortedValues_length]
      exact List.length_pos.mpr h0
    obtain ⟨w, t, hwt⟩ := List.exists_cons_of_ne_nil (List.length_pos.mp hl)
    rw [hwt]
    simp [List.getD_cons_zero]
  · intro v hv
    exact sorted_getD_zero_le (sortedValues_sorted data) (sortedValues_mem.mpr hv)

/-- C3 witness: the amended statement evaluated on `{a: -1, b: 2}`. -/
theorem stage12_floor_adds_min_witness :
    ((stage12 [("a", -1), ("b", 2)]).map Prod.snd).head? =
      some ((sortedValues [("a", -1), ("b", 2)]).getD 0 0 +
        (sortedValues [("a", -1), ("b", 2)]).getD 0 0) :=
  (stage12_floor_adds_min (by simp)
    (by norm_num [sortedValues, List.insertionSort, List.orderedInsert])).2.1

/-! ### C5 — the stages are not sequential -/

/-- C5 counterexample: input `{a: 0, b: 1, c: 5}`, `m = 6`.  The original
minimum is `0 ≤ 0`, so the floor branch runs (adding 0); on the
post-stage-1 values `[0, 1, 5]` the ceiling premise holds
(`α - β = 5 - 1 = 4 > 0 = ω`), so the claim predicts the maximum is
replaced by `β + ω = 1`.  The code instead skips stage 2 entirely (the
branches are `if/else if`): the returned values are `[0, 1, 5]`, still
containing the uncorrected maximum 5. -/
theorem stages_not_sequential_cex :
    adjustWeights [("a", 0), ("b", 1), ("c", 5)] 6 1 =
        some [("0", 0), ("1", 1), ("2", 5)] ∧
      ((5:ℚ) - 1 > 0 ∧ (1:ℚ) + 0 ≠ 5) := by
  constructor
  · norm_num [adjustWeights, stage12, sortedValues, List.insertionSort,
      List.orderedInsert, adjustAllWeights, List.enum, List.enumFrom, rescale,
      sumValues, round10_zero, round10_one, round10_five, toString_nat0,
      toString_nat1, toString_nat2]
  · norm_num

/-- C5 (amended): floor and ceiling correction are mutually exclusive
branches, not sequential stages.  When the original minimum ω is ≤ 0 the
floor branch runs and the ceiling correction is skipped: even when the
post-stage-1 values satisfy the ceiling premise
`(α + ω) - (β + ω) > 2ω`, the last (maximum) value after the branch stage
is `α + ω` — not the `(β + ω) + 2ω` that a sequential stage 2 would
produce. -/
theorem ceiling_skipped_after_floor {data : WeightSet} (h0 : data ≠ [])
    (hω : (sortedValues data).getD 0 0 ≤ 0)
    (hn : 2 ≤ (sortedValues data).length)
    (hprem : (sortedValues data).getD ((sortedValues data).length - 1) 0 -
        (sortedValues data).getD ((sortedValues data).length - 2) 0 >
      2 * (sortedValues data).getD 0 0) :
    ((stage12 data).map Prod.snd).getLast? =
        some ((sortedValues data).getD ((sortedValues data).length - 1) 0 +
          (sortedValues data).getD 0 0) ∧
      (sortedValues data).getD ((sortedValues data).length - 1) 0 +
          (sortedValues data).getD 0 0 ≠
        ((sortedValues data).getD ((sortedValues data).length - 2) 0 +
            (sortedValues data).getD 0 0) +
          2 * (sortedValues data).getD 0 0 := by
  constructor
  · rw [stage12_floor h0 hω, adjustAllWeights_values, List.getLast?_map]
    have hlen : (sortedValues data).length - 1 < (sortedValues data).length := by
      omega
    have h1 : (sortedValues data).getLast? =
        some ((sortedValues data).getD ((sortedValues data).length - 1) 0) := by
      rw [List.getLast?_eq_getElem?, List.getElem?_eq_getElem hlen,
        List.getD_eq_getElem _ _ hlen]
    rw [h1, Option.map_some']
  · intro h
    apply absurd hprem
    push_neg
    linarith

/-- C5 witness: the amended statement evaluated on `{a: 0, b: 1, c: 5}`. -/
theorem ceiling_skipped_after_floor_witness :
    ((stage12 [("a", 0), ("b", 1), ("c", 5)]).map Prod.snd).getLast? =
      some ((sortedValues [("a", 0), ("b", 1), ("c", 5)]).getD
          ((sortedValues [("a", 0), ("b", 1), ("c", 5)]).length - 1) 0 +
        (sortedValues [("a", 0), ("b", 1), ("c", 5)]).getD 0 0) :=
  (ceiling_skipped_after_floor (by simp)
    (by norm_num [sortedValues, List.insertionSort, List.orderedInsert])
    (by norm_num [sortedValues, List.insertionSort, List.orderedInsert])
    (by norm_num [sortedValues, List.insertionSort, List.orderedInsert])).1

/-! ### C9 — ceiling correction and ties -/

/-- C9 counterexample: `adjustMaxWeight` with two occurrences of the old
maximum replaces **every** occurrence, not only the first one in iteration
order: on values `[5, 5]` with `newMax = 4` both entries become 4. -/
theorem adjustMaxWeight_ties_cex :
    adjustMaxWeight [5, 5] 4 5 = [("0", 4), ("1", 4)] ∧ (4:ℚ) ≠ 5 := by
  constructor
  · norm_num [adjustMaxWeight, List.enum, List.enumFrom, toString_nat0, toString_nat1]
  · norm_num

/-- C9 (amended): inside `adjustWeights` the situation of the claim never
arises: whenever the ceiling branch actually runs (minimum > 0 and
`α - β > ω`), the maximum is *unique* in the sorted array, so exactly one
occurrence is replaced by `β + ω`.  `adjustMaxWeight` itself, given
duplicated maxima, would replace every occurrence (see the
counterexample). -/
theorem ceil_branch_unique_max {data : WeightSet}
    (hfloor : ¬ (sortedValues data).getD 0 0 ≤ 0)
    (hn : 2 ≤ (sortedValues data).length)
    (hc : (sortedValues data).getD 0 0 <
      (sortedValues data).getD ((sortedValues data).length - 1) 0 -
        (sortedValues data).getD ((sortedValues data).length - 2) 0) :
    (stage12 data).map Prod.snd =
        (sortedValues data).map
          (fun w => if w = (sortedValues data).getD ((sortedValues data).length - 1) 0
            then (sortedValues data).getD ((sortedValues data).length - 2) 0 +
              (sortedValues data).getD 0 0
            else w) ∧
      (sortedValues data).count
        ((sortedValues data).getD ((sortedValues data).length - 1) 0) = 1 := by
  constructor
  · rw [stage12_ceil hfloor hn hc, adjustMaxWeight_values]
  · apply sorted_count_max (sortedValues_sorted data) hn
    have hω : 0 < (sortedValues data).getD 0 0 := not_le.mp hfloor
    linarith

/-- C9 witness: the amended statement evaluated on `{a: 1, b: 2, c: 5}`
(unique maximum 5, replaced by `β + ω = 3`). -/
theorem ceil_branch_unique_max_witness :
    (sortedValues [("a", 1), ("b", 2), ("c", 5)]).count
      ((sortedValues [("a", 1), ("b", 2), ("c", 5)]).getD
        ((sortedValues [("a", 1), ("b", 2), ("c", 5)]).length - 1) 0) = 1 :=
  (ceil_branch_unique_max
    (by norm_num [sortedValues, List.insertionSort, List.orderedInsert])
    (by norm_num [sortedValues, List.insertionSort, List.orderedInsert])
    (by norm_num [sortedValues, List.insertionSort, List.orderedInsert])).2

/-! ### C4 — count and key preservation -/

theorem adjustAllWeights_length (ws : List ℚ) (amount : ℚ) :
    (adjustAllWeights ws amount).length = ws.length := by
  simp [adjustAllWeights, List.enum_length]

theorem adjustMaxWeight_length (ws : List ℚ) (newMax oldMax : ℚ) :
    (adjustMaxWeight ws newMax oldMax).length = ws.length := by
  simp [adjustMaxWeight, List.enum_length]

theorem stage12_length (data : WeightSet) : (stage12 data).length = data.length := by
  simp only [stage12]
  split_ifs
  · rw [adjustAllWeights_length, sortedValues_length]
  · rw [adjustMaxWeight_length, sortedValues_length]
  · rfl

/-- C4 counterexample: on `{a: -1, b: 2}` with `m = 1`, the returned
mapping is `{"0": 2, "1": -1}` — the keys `a`, `b` have been replaced by
the string indices of the sorted value array, so the key set is *not*
preserved (the count is). -/
theorem adjustWeights_renames_keys_cex :
    adjustWeights [("a", -1), ("b", 2)] 1 1 = some [("0", 2), ("1", -1)] ∧
      [("0", (2:ℚ)), ("1", -1)].map Prod.fst ≠ [("a", (-1:ℚ)), ("b", 2)].map Prod.fst := by
  constructor
  · norm_num [adjustWeights, stage12, sortedValues, List.insertionSort,
      List.orderedInsert, adjustAllWeights, List.enum, List.enumFrom, rescale,
      sumValues, round10_two, round10_neg_one, toString_nat0, toString_nat1]
  · simp

/-- C4 (amended): whenever `adjustWeights` returns a mapping, the entry
count equals the input's; the key set is preserved exactly when neither
correction branch fires, and when the floor branch fires the keys are the
stringified indices `0 … n-1` of the sorted value array instead. -/
theorem adjustWeights_count_keys {data : WeightSet} {m : ℚ} {fuel : ℕ} {out : WeightSet}
    (h : adjustWeights data m fuel = some out) :
    out.length = data.length ∧
      (¬ (0 < (sortedValues data).length ∧ (sortedValues data).getD 0 0 ≤ 0) →
        ¬ (2 ≤ (sortedValues data).length ∧ (sortedValues data).getD 0 0 <
          (sortedValues data).getD ((sortedValues data).length - 1) 0 -
            (sortedValues data).getD ((sortedValues data).length - 2) 0) →
        out.map Prod.fst = data.map Prod.fst) ∧
      (data ≠ [] → (sortedValues data).getD 0 0 ≤ 0 →
        out.map Prod.fst = (List.range' 0 data.length).map toString) := by
  obtain ⟨hout, -⟩ := adjustWeights_some_eq h
  have hkeys : out.map Prod.fst = (stage12 data).map Prod.fst := by
    rw [hout, rescale, List.map_map]
    rfl
  refine ⟨?_, ?_, ?_⟩
  · rw [hout, rescale, List.length_map, stage12_length]
  · intro h1 h2
    rw [hkeys, stage12_id h1 h2]
  · intro hne hω
    rw [hkeys, stage12_floor hne hω, adjustAllWeights_keys, sortedValues_length]

/-- C4 witness: on `{a: 1, b: 4}`, `m = 5`, the ceiling branch fires, the
result is `{"0": 1.7, "1": 3.3}`, and the entry count is preserved. -/
theorem adjustWeights_count_keys_witness :
    [("0", (17:ℚ)/10), ("1", 33/10)].length = [("a", (1:ℚ)), ("b", 4)].length :=
  (@adjustWeights_count_keys [("a", 1), ("b", 4)] 5 1 [("0", 17/10), ("1", 33/10)]
    (by norm_num [adjustWeights, stage12, sortedValues, List.insertionSort,
      List.orderedInsert, adjustMaxWeight, List.enum, List.enumFrom, rescale,
      sumValues, round10_five_thirds, round10_ten_thirds, toString_nat0,
      toString_nat1])).1

/-! ### C7 — singleton inputs -/

/-- C7 counterexample: on the singleton `{k: -1}` with `m = 10` the result
is `{"0": 10}`, not `{k: 10}` — the floor branch rebuilds the object under
the index key `"0"`. -/
theorem singleton_key_renamed_cex :
    adjustWeights [("k", -1)] 10 1 = some [("0", 10)] ∧ ("0" : String) ≠ "k" := by
  constructor
  · norm_num [adjustWeights, stage12, sortedValues, List.insertionSort,
      List.orderedInsert, adjustAllWeights, List.enum, List.enumFrom, rescale,
      sumValues, round10_ten, toString_nat0]
  · decide

/-- C7 (amended): for a singleton input `{k: w}` the ceiling correction is
indeed skipped (the JS `maxWeight - undefined > minWeight` test is false),
and when `m` is exact at one decimal the single value becomes `m`; but the
key is preserved only for `w > 0` — for `w < 0` the floor branch renames
it to `"0"`.  (For `w = 0` the rescale divides by zero.) -/
theorem singleton_behavior (k : String) (w m : ℚ) (fuel : ℕ) (hm : round10 m = m) :
    (0 < w → adjustWeights [(k, w)] m (fuel + 1) = some [(k, m)]) ∧
      (w < 0 → adjustWeights [(k, w)] m (fuel + 1) = some [("0", m)]) := by
  have hs : sortedValues [(k, w)] = [w] := by
    simp [sortedValues, List.insertionSort]
  constructor
  · intro hw
    have hid : stage12 [(k, w)] = [(k, w)] := by
      apply stage12_id
      · rw [hs]
        rintro ⟨-, hle⟩
        exact absurd hle (not_le.mpr hw)
      · rw [hs]
        rintro ⟨hlen, -⟩
        norm_num at hlen
    have hsv : sumValues [(k, w)] = w := by simp [sumValues]
    have hres : rescale [(k, w)] m (sumValues [(k, w)]) = [(k, m)] := by
      rw [hsv]
      simp only [rescale, List.map_cons, List.map_nil]
      rw [div_mul_cancel₀ m (ne_of_gt hw), hm]
    have hsm : sumValues [(k, m)] = m := by simp [sumValues]
    simp only [adjustWeights]
    rw [hid, hres, hsm]
    simp [lt_irrefl]
  · intro hw
    have hfl : stage12 [(k, w)] = [("0", w + w)] := by
      rw [stage12_floor (by simp) (by rw [hs]; simpa using le_of_lt hw), hs]
      simp [adjustAllWeights, List.enum, List.enumFrom, toString_nat0]
    have hsv : sumValues [("0", w + w)] = w + w := by simp [sumValues]
    have hww : w + w ≠ 0 := by linarith
    have hres : rescale [("0", w + w)] m (w + w) = [("0", m)] := by
      simp only [rescale, List.map_cons, List.map_nil]
      rw [div_mul_cancel₀ m hww, hm]
    have hsm : sumValues [("0", m)] = m := by simp [sumValues]
    simp only [adjustWeights]
    rw [hfl, hsv, hres, hsm]
    simp [lt_irrefl]

/-- C7 witness: both cases of the amended statement, at `w = 1` and
`w = -1` with `m = 10`. -/
theorem singleton_behavior_witness :
    adjustWeights [("k", 1)] 10 1 = some [("k", 10)] ∧
      adjustWeights [("q", -1)] 10 1 = some [("0", 10)] :=
  ⟨(singleton_behavior "k" 1 10 0 round10_ten).1 (by norm_num),
   (singleton_behavior "q" (-1) 10 0 round10_ten).2 (by norm_num)⟩

/-! ### C6 — zero post-correction sum, with JS number semantics

When the post-correction sum is 0 the source divides by zero at line 51.
In JS `m / 0` is `Infinity` (`-Infinity` for negative `m`, `NaN` for
`m = 0`), every rescaled value becomes `±Infinity`/`NaN`, and the
recomputed sum at line 53 is `NaN` — so both guards `adjustedSum < m`
(line 54) and `adjustedSum > m` (line 56) are false and line 60 returns
the special-valued mapping to the caller.  These lemmas establish that
control flow over the `JsVal` model. -/

theorem jsAdd_nan_left (x : JsVal) : jsAdd JsVal.nan x = JsVal.nan := by
  cases x <;> rfl

theorem jsAdd_nan_right (x : JsVal) : jsAdd x JsVal.nan = JsVal.nan := by
  cases x <;> rfl

theorem jsLt_nan_left (x : JsVal) : jsLt JsVal.nan x = false := by
  cases x <;> rfl

theorem jsLt_nan_right (x : JsVal) : jsLt x JsVal.nan = false := by
  cases x <;> rfl

theorem round10Js_isFinite (x : JsVal) : (round10Js x).isFinite = x.isFinite := by
  cases x <;> rfl

theorem jsMul_not_finite {x : JsVal} (hx : x.isFinite = false) (v : ℚ) :
    (jsMul x v).isFinite = false := by
  cases x with
  | num a => exact absurd hx (by simp [JsVal.isFinite])
  | posInf => unfold jsMul; split_ifs <;> rfl
  | negInf => unfold jsMul; split_ifs <;> rfl
  | nan => rfl

theorem jsDiv_zero_not_finite (m : ℚ) : (jsDiv m 0).isFinite = false := by
  unfold jsDiv
  rw [if_pos rfl]
  split_ifs <;> rfl

theorem jsMul_special_zero {x : JsVal} (hx : x.isFinite = false) :
    jsMul x 0 = JsVal.nan := by
  cases x with
  | num a => exact absurd hx (by simp [JsVal.isFinite])
  | posInf => unfold jsMul; norm_num
  | negInf => unfold jsMul; norm_num
  | nan => rfl

/-- When the divisor is nonzero, the JS rescale agrees with the exact ℚ
rescale: the ℚ pipeline is faithful for every such run. -/
theorem rescaleJs_of_ne_zero (l : WeightSet) (m s : ℚ) (h : s ≠ 0) :
    rescaleJs l m s = (rescale l m s).map (fun kv => (kv.1, JsVal.num kv.2)) := by
  unfold rescaleJs rescale jsDiv
  rw [if_neg h, List.map_map]
  rfl

theorem rescaleJs_values (l : WeightSet) (m s : ℚ) :
    (rescaleJs l m s).map Prod.snd =
      (l.map Prod.snd).map (fun v => round10Js (jsMul (jsDiv m s) v)) := by
  unfold rescaleJs
  rw [List.map_map, List.map_map]
  rfl

theorem foldl_jsAdd_nan (vs : List JsVal) : vs.foldl jsAdd JsVal.nan = JsVal.nan := by
  induction vs with
  | nil => rfl
  | cons x t ih =>
    rw [List.foldl_cons, jsAdd_nan_left]
    exact ih

theorem foldl_jsAdd_of_nan_mem :
    ∀ (vs : List JsVal) (s : JsVal), JsVal.nan ∈ vs → vs.foldl jsAdd s = JsVal.nan := by
  intro vs
  induction vs with
  | nil => intro s h; cases h
  | cons x t ih =>
    intro s h
    rw [List.foldl_cons]
    rcases List.mem_cons.mp h with rfl | ht
    · rw [jsAdd_nan_right]
      exact foldl_jsAdd_nan t
    · exact ih _ ht

theorem jsSumVals_nan_of_nan_mem {vs : List JsVal} (h : JsVal.nan ∈ vs) :
    jsSumVals vs = JsVal.nan :=
  foldl_jsAdd_of_nan_mem vs _ h

theorem foldl_jsAdd_posInf_negInf :
    ∀ (t : List JsVal), (∀ x ∈ t, x.isFinite = false) → JsVal.negInf ∈ t →
      t.foldl jsAdd JsVal.posInf = JsVal.nan := by
  intro t
  induction t with
  | nil => intro _ h; cases h
  | cons x t ih =>
    intro hfin hmem
    rw [List.foldl_cons]
    cases x with
    | num a => exact absurd (hfin _ (List.mem_cons_self _ _)) (by simp [JsVal.isFinite])
    | posInf =>
      have hmem' : JsVal.negInf ∈ t := by
        rcases List.mem_cons.mp hmem with h | h
        · exact absurd h (by simp)
        · exact h
      exact ih (fun y hy => hfin y (List.mem_cons_of_mem _ hy)) hmem'
    | negInf =>
      rw [show jsAdd JsVal.posInf JsVal.negInf = JsVal.nan from rfl]
      exact foldl_jsAdd_nan t
    | nan =>
      rw [jsAdd_nan_right]
      exact foldl_jsAdd_nan t

theorem foldl_jsAdd_negInf_posInf :
    ∀ (t : List JsVal), (∀ x ∈ t, x.isFinite = false) → JsVal.posInf ∈ t →
      t.foldl jsAdd JsVal.negInf = JsVal.nan := by
  intro t
  induction t with
  | nil => intro _ h; cases h
  | cons x t ih =>
    intro hfin hmem
    rw [List.foldl_cons]
    cases x with
    | num a => exact absurd (hfin _ (List.mem_cons_self _ _)) (by simp [JsVal.isFinite])
    | negInf =>
      have hmem' : JsVal.posInf ∈ t := by
        rcases List.mem_cons.mp hmem with h | h
        · exact absurd h (by simp)
        · exact h
      exact ih (fun y hy => hfin y (List.mem_cons_of_mem _ hy)) hmem'
    | posInf =>
      rw [show jsAdd JsVal.negInf JsVal.posInf = JsVal.nan from rfl]
      exact foldl_jsAdd_nan t
    | nan =>
      rw [jsAdd_nan_right]
      exact foldl_jsAdd_nan t

/-- A sum over only non-finite values containing both `Infinity` and
`-Infinity` is `NaN`. -/
theorem jsSumVals_nan_of_mixed {vs : List JsVal}
    (hfin : ∀ x ∈ vs, x.isFinite = false)
    (hp : JsVal.posInf ∈ vs) (hng : JsVal.negInf ∈ vs) :
    jsSumVals vs = JsVal.nan := by
  cases vs with
  | nil => cases hp
  | cons x t =>
    unfold jsSumVals
    rw [List.foldl_cons]
    cases x with
    | num a => exact absurd (hfin _ (List.mem_cons_self _ _)) (by simp [JsVal.isFinite])
    | posInf =>
      have hngt : JsVal.negInf ∈ t := by
        rcases List.mem_cons.mp hng with h | h
        · exact absurd h (by simp)
        · exact h
      rw [show jsAdd (JsVal.num 0) JsVal.posInf = JsVal.posInf from rfl]
      exact foldl_jsAdd_posInf_negInf t (fun y hy => hfin y (List.mem_cons_of_mem _ hy)) hngt
    | negInf =>
      have hpt : JsVal.posInf ∈ t := by
        rcases List.mem_cons.mp hp with h | h
        · exact absurd h (by simp)
        · exact h
      rw [show jsAdd (JsVal.num 0) JsVal.negInf = JsVal.negInf from rfl]
      exact foldl_jsAdd_negInf_posInf t (fun y hy => hfin y (List.mem_cons_of_mem _ hy)) hpt
    | nan =>
      rw [jsAdd_nan_right]
      exact foldl_jsAdd_nan t

theorem list_sum_nonpos {l : List ℚ} (h : ∀ x ∈ l, x ≤ 0) : l.sum ≤ 0 := by
  induction l with
  | nil => exact le_refl 0
  | cons x t ih =>
    rw [List.sum_cons]
    have hx := h x (List.mem_cons_self _ _)
    have ht := ih (fun y hy => h y (List.mem_cons_of_mem _ hy))
    linarith

/-- A list of rationals summing to 0 that contains a nonzero element
contains both a positive and a negative element. -/
theorem exists_pos_neg_of_sum_zero {l : List ℚ} (hsum : l.sum = 0) {v : ℚ}
    (hv : v ∈ l) (hv0 : v ≠ 0) :
    (∃ a ∈ l, 0 < a) ∧ ∃ b ∈ l, b < 0 := by
  have hperm : l.Perm (v :: l.erase v) := List.perm_cons_erase hv
  have hsplit : v + (l.erase v).sum = 0 := by
    have := hperm.sum_eq
    rw [List.sum_cons] at this
    rw [← this, hsum]
  rcases lt_or_gt_of_ne hv0 with hneg | hpos
  · refine ⟨?_, ⟨v, hv, hneg⟩⟩
    by_contra hno
    push_neg at hno
    have : (l.erase v).sum ≤ 0 :=
      list_sum_nonpos (fun x hx => hno x (List.mem_of_mem_erase hx))
    linarith
  · refine ⟨⟨v, hv, hpos⟩, ?_⟩
    by_contra hno
    push_neg at hno
    have : 0 ≤ (l.erase v).sum :=
      List.sum_nonneg (fun x hx => hno x (List.mem_of_mem_erase hx))
    linarith

/-- C6 counterexample: `{a: 3, b: -1}` has post-correction values
`[-2, 2]` summing to 0 (n = 2 > 1).  With `m = 1` the JS rescale produces
`{"0": -Infinity, "1": Infinity}`, the recomputed sum is `NaN`, and both
`while`-entry guards are false — so the source returns this
Infinity-valued mapping to the caller.  No typed `DivisionByZero` error
exists anywhere in the code. -/
theorem rescaleJs_zero_sum_cex :
    rescaleJs (stage12 [("a", 3), ("b", -1)]) 1 (sumValues (stage12 [("a", 3), ("b", -1)])) =
        [("0", JsVal.negInf), ("1", JsVal.posInf)] ∧
      jsSum [("0", JsVal.negInf), ("1", JsVal.posInf)] = JsVal.nan ∧
      jsLt JsVal.nan (JsVal.num 1) = false ∧
      jsLt (JsVal.num 1) JsVal.nan = false := by
  refine ⟨?_, rfl, rfl, rfl⟩
  norm_num [rescaleJs, stage12, sortedValues, List.insertionSort, List.orderedInsert,
    adjustAllWeights, List.enum, List.enumFrom, sumValues, jsDiv, jsMul, round10Js,
    toString_nat0, toString_nat1]

/-- C6 (amended): when the post-correction sum is 0 (and n > 1), no typed
error is raised and none of the reconciliation is reached: the division is
performed unconditionally, every rescaled value is `Infinity`,
`-Infinity` or `NaN`, the recomputed sum is `NaN`, and both loop guards
(`NaN < m`, `m < NaN`) are false — so for every `m` the caller receives
the `Infinity`/`NaN`-valued mapping as an ordinary result. -/
theorem zero_sum_returns_specials {data : WeightSet} (m : ℚ) (hn : 2 ≤ data.length)
    (hz : sumValues (stage12 data) = 0) :
    (∀ kv ∈ rescaleJs (stage12 data) m (sumValues (stage12 data)),
        kv.2.isFinite = false) ∧
      jsSum (rescaleJs (stage12 data) m (sumValues (stage12 data))) = JsVal.nan ∧
      jsLt (jsSum (rescaleJs (stage12 data) m (sumValues (stage12 data))))
        (JsVal.num m) = false ∧
      jsLt (JsVal.num m)
        (jsSum (rescaleJs (stage12 data) m (sumValues (stage12 data)))) = false := by
  have hd : (jsDiv m 0).isFinite = false := jsDiv_zero_not_finite m
  have hfin : ∀ kv ∈ rescaleJs (stage12 data) m (sumValues (stage12 data)),
      kv.2.isFinite = false := by
    intro kv hkv
    rw [hz] at hkv
    obtain ⟨kv₀, -, rfl⟩ := List.mem_map.mp hkv
    show (round10Js (jsMul (jsDiv m 0) kv₀.2)).isFinite = false
    rw [round10Js_isFinite]
    exact jsMul_not_finite hd _
  have hvs_sum : ((stage12 data).map Prod.snd).sum = 0 := hz
  have hvs_ne : (stage12 data).map Prod.snd ≠ [] := by
    intro hnil
    have h1 : ((stage12 data).map Prod.snd).length = data.length := by
      rw [List.length_map, stage12_length]
    rw [hnil] at h1
    simp at h1
    omega
  have hmap : (rescaleJs (stage12 data) m (sumValues (stage12 data))).map Prod.snd =
      ((stage12 data).map Prod.snd).map
        (fun v => round10Js (jsMul (jsDiv m 0) v)) := by
    rw [hz, rescaleJs_values]
  have hfin' : ∀ x ∈ (rescaleJs (stage12 data) m (sumValues (stage12 data))).map Prod.snd,
      JsVal.isFinite x = false := by
    intro x hx
    obtain ⟨kv, hkv, rfl⟩ := List.mem_map.mp hx
    exact hfin kv hkv
  have hnan : jsSum (rescaleJs (stage12 data) m (sumValues (stage12 data))) = JsVal.nan := by
    unfold jsSum
    rw [hmap]
    by_cases hm : m = 0
    · -- 0 / 0 = NaN, so every value is NaN
      obtain ⟨v, hv⟩ := List.exists_mem_of_ne_nil _ hvs_ne
      apply jsSumVals_nan_of_nan_mem
      have : round10Js (jsMul (jsDiv m 0) v) = JsVal.nan := by
        subst hm
        rw [show jsDiv 0 0 = JsVal.nan by unfold jsDiv; norm_num]
        rfl
      rw [← this]
      exact List.mem_map_of_mem _ hv
    · by_cases hall : ∀ v ∈ (stage12 data).map Prod.snd, v = 0
      · -- ±Infinity * 0 = NaN, so every value is NaN
        obtain ⟨v, hv⟩ := List.exists_mem_of_ne_nil _ hvs_ne
        apply jsSumVals_nan_of_nan_mem
        have : round10Js (jsMul (jsDiv m 0) v) = JsVal.nan := by
          rw [hall v hv, jsMul_special_zero hd]
          rfl
        rw [← this]
        exact List.mem_map_of_mem _ hv
      · -- both Infinity and -Infinity occur, so the sum is NaN
        push_neg at hall
        obtain ⟨v₀, hv₀, hv₀ne⟩ := hall
        obtain ⟨⟨a, ha, hapos⟩, ⟨b, hb, hbneg⟩⟩ :=
          exists_pos_neg_of_sum_zero hvs_sum hv₀ hv₀ne
        apply jsSumVals_nan_of_mixed
        · intro x hx
          obtain ⟨v, -, rfl⟩ := List.mem_map.mp hx
          rw [round10Js_isFinite]
          exact jsMul_not_finite hd _
        · rcases lt_or_gt_of_ne hm with hmneg | hmpos
          · have hdiv : jsDiv m 0 = JsVal.negInf := by
              unfold jsDiv
              rw [if_pos rfl, if_neg (by linarith), if_pos hmneg]
            have : round10Js (jsMul (jsDiv m 0) b) = JsVal.posInf := by
              rw [hdiv]
              show round10Js
                (if 0 < b then JsVal.negInf else if b < 0 then JsVal.posInf
                  else JsVal.nan) = JsVal.posInf
              rw [if_neg (by linarith), if_pos hbneg]
              rfl
            rw [← this]
            exact List.mem_map_of_mem _ hb
          · have hdiv : jsDiv m 0 = JsVal.posInf := by
              unfold jsDiv
              rw [if_pos rfl, if_pos hmpos]
            have : round10Js (jsMul (jsDiv m 0) a) = JsVal.posInf := by
              rw [hdiv]
              show round10Js
                (if 0 < a then JsVal.posInf else if a < 0 then JsVal.negInf
                  else JsVal.nan) = JsVal.posInf
              rw [if_pos hapos]
              rfl
            rw [← this]
            exact List.mem_map_of_mem _ ha
        · rcases lt_or_gt_of_ne hm with hmneg | hmpos
          · have hdiv : jsDiv m 0 = JsVal.negInf := by
              unfold jsDiv
              rw [if_pos rfl, if_neg (by linarith), if_pos hmneg]
            have : round10Js (jsMul (jsDiv m 0) a) = JsVal.negInf := by
              rw [hdiv]
              show round10Js
                (if 0 < a then JsVal.negInf else if a < 0 then JsVal.posInf
                  else JsVal.nan) = JsVal.negInf
              rw [if_pos hapos]
              rfl
            rw [← this]
            exact List.mem_map_of_mem _ ha
          · have hdiv : jsDiv m 0 = JsVal.posInf := by
              unfold jsDiv
              rw [if_pos rfl, if_pos hmpos]
            have : round10Js (jsMul (jsDiv m 0) b) = JsVal.negInf := by
              rw [hdiv]
              show round10Js
                (if 0 < b then JsVal.posInf else if b < 0 then JsVal.negInf
                  else JsVal.nan) = JsVal.negInf
              rw [if_neg (by linarith), if_pos hbneg]
              rfl
            rw [← this]
            exact List.mem_map_of_mem _ hb
  exact ⟨hfin, hnan, by rw [hnan]; exact jsLt_nan_left _,
    by rw [hnan]; exact jsLt_nan_right _⟩

/-- C6 witness: the amended statement on `{a: 3, b: -1}` with `m = 1`:
the rescaled sum is `NaN`, so the reconciliation is skipped and the
special-valued mapping is returned. -/
theorem zero_sum_returns_specials_witness :
    jsSum (rescaleJs (stage12 [("a", 3), ("b", -1)]) 1
      (sumValues (stage12 [("a", 3), ("b", -1)]))) = JsVal.nan :=
  (zero_sum_returns_specials 1 (by norm_num)
    (by norm_num [stage12, sortedValues, List.insertionSort, List.orderedInsert,
      adjustAllWeights, List.enum, List.enumFrom, sumValues])).2.1

/-! ### C8 — no-op inputs -/

/-- C8 counterexample: `{a: 1.25, b: 1.25}` with `m = 2.5` satisfies all
the claim's conditions (min > 0, max − secondMax = 0 ≤ min, sum = m), yet
`adjustWeights` never returns: rounding sends both values to 1.3, the sum
becomes 2.6 > 2.5, and the low-reconciliation loop (which only *increases*
the sum) never terminates. -/
theorem noop_fixed_point_cex :
    adjustWeights [("a", 5/4), ("b", 5/4)] (5/2) 100 = none ∧
      (0:ℚ) < 5/4 ∧ sumValues [("a", (5:ℚ)/4), ("b", 5/4)] = 5/2 := by
  refine ⟨?_, by norm_num, by norm_num [sumValues]⟩
  have hlow : adjustLowWeights [("a", (13:ℚ)/10), ("b", 13/10)] (5/2) 2 100 = none :=
    adjustLowWeights_none _ _ _ _ (by norm_num [sumValues])
  norm_num [adjustWeights, stage12, sortedValues, List.insertionSort,
    List.orderedInsert, rescale, sumValues, round10_five_fourths, hlow]

/-- C8 (amended): an input that satisfies the no-op conditions **and**
whose values are already exact at one decimal is a true fixed point:
`adjustWeights` returns the input unchanged. -/
theorem noop_fixed_point {data : WeightSet} {m : ℚ} (fuel : ℕ) (h0 : data ≠ [])
    (hmin : 0 < (sortedValues data).getD 0 0)
    (hceil : (sortedValues data).getD ((sortedValues data).length - 1) 0 -
        (sortedValues data).getD ((sortedValues data).length - 2) 0 ≤
      (sortedValues data).getD 0 0)
    (hsum : sumValues data = m)
    (hround : ∀ kv ∈ data, round10 kv.2 = kv.2) :
    adjustWeights data m (fuel + 1) = some data := by
  have hid : stage12 data = data := by
    apply stage12_id
    · rintro ⟨-, hle⟩
      exact absurd hle (not_le.mpr hmin)
    · rintro ⟨-, hlt⟩
      exact absurd hlt (not_lt.mpr hceil)
  have hm0 : 0 < m := by
    rw [← hsum, ← sortedValues_sum]
    apply List.sum_pos
    · intro x hx
      exact lt_of_lt_of_le hmin (sorted_getD_zero_le (sortedValues_sorted data) hx)
    · intro hnil
      have := sortedValues_length data
      rw [hnil] at this
      exact h0 (List.length_eq_zero.mp this.symm)
  have hres : rescale data m (sumValues data) = data := by
    rw [hsum]
    unfold rescale
    have hpt : ∀ kv ∈ data, (kv.1, round10 (m / m * kv.2)) = id kv := by
      intro kv hkv
      rw [div_self (ne_of_gt hm0), one_mul, hround kv hkv]
      rfl
    rw [List.map_congr_left hpt, List.map_id]
  simp only [adjustWeights]
  rw [hid, hres, hsum]
  simp [lt_irrefl]

/-- C8 witness: `{a: 2, b: 3}` with `m = 5` is returned unchanged. -/
theorem noop_fixed_point_witness :
    adjustWeights [("a", 2), ("b", 3)] 5 1 = some [("a", 2), ("b", 3)] :=
  noop_fixed_point 0 (by simp)
    (by norm_num [sortedValues, List.insertionSort, List.orderedInsert])
    (by norm_num [sortedValues, List.insertionSort, List.orderedInsert])
    (by norm_num [sumValues])
    (by
      intro kv hkv
      rcases List.mem_cons.mp hkv with rfl | hkv'
      · exact round10_two
      · obtain rfl := List.mem_singleton.mp hkv'
        exact round10_three)

/-! ### C1 and C2 — the reconciliation stage never terminates -/

/-- C1: on the spec's own scenario input `{x: 1, y: 1, z: 1}` with
`m = 10` (a valid input: non-empty, post-correction sum 3 ≠ 0), the
rescaled values are 3.3 each (sum 9.9 < 10) and the high-reconciliation
loop runs — but it only decreases the sum, so even 1000 `while`
iterations (the claim predicts convergence within about one) produce no
result.  `adjustHighWeights_none` shows the same for *every* fuel:
`adjustWeights` never returns here, hence no output mapping sums to `m`. -/
theorem adjustWeights_nonterm_below_target :
    adjustWeights [("x", 1), ("y", 1), ("z", 1)] 10 1000 = none := by
  have hhigh : adjustHighWeights [("x", (33:ℚ)/10), ("y", 33/10), ("z", 33/10)] 10 3 1000 = none :=
    adjustHighWeights_none _ _ _ _ (by norm_num [sumValues])
  norm_num [adjustWeights, stage12, sortedValues, List.insertionSort,
    List.orderedInsert, rescale, sumValues, round10_ten_thirds, hhigh]

/-- C2: both reconciliation loops, entered on their guard (rescaled sum
below resp. above `m`), fail to finish within 1000 iterations — the claim
predicts at most `|sum1 - m| / 0.1 = 1` iteration for each of these
states.  The general lemmas `adjustHighWeights_none` / `adjustLowWeights_none`
(used as the proof) show the loops return `none` for *every* fuel: the
decrementing loop keeps the sum below `m`, the incrementing loop keeps it
above `m`, so the `while` guards never become false. -/
theorem reconciliation_loops_nonterm :
    adjustHighWeights [("x", (33:ℚ)/10), ("y", 33/10), ("z", 33/10)] 10 3 1000 = none ∧
      adjustLowWeights [("a", (13:ℚ)/10), ("b", 13/10)] (5/2) 2 1000 = none :=
  ⟨adjustHighWeights_none _ _ _ _ (by norm_num [sumValues]),
    adjustLowWeights_none _ _ _ _ (by norm_num [sumValues])⟩

end Equalizer
